import Mathlib

/-!
Verification of the pacing and resilience policy of a LinkedIn outreach
automation program.

The development shallowly embeds the program's delay policy
(`utils/throttling.py`), circuit breaker and orchestrator send loop
(`main.py`), template engine (`utils/placeholders.py`), and recipient
loader (`utils/csv_handler.py`, `core/models.py`) as executable Lean
definitions, and proves the specified properties about them.

Modelling conventions:
* Python floats are modelled as exact rationals (`ℚ`).
* Each call to `random.uniform(a, b)` is modelled by an explicit
  parameter `u ∈ [0, 1]`, the draw being `a + (b - a) * u`.
* Python division, which raises `ZeroDivisionError` on a zero
  denominator, is modelled by an `Option`-valued division.
* Strings are handled as lists of characters.
-/

/-- Models Python's `random.uniform(a, b)`: the draw is `a + (b - a) * u`
where `u = random() ∈ [0, 1]`. -/
def uniform (a b u : ℚ) : ℚ := a + (b - a) * u

/-- `Throttler.human_delay`: `random.uniform(self.min_delay, self.max_delay)`. -/
def humanDelay (min_delay max_delay u : ℚ) : ℚ := uniform min_delay max_delay u

/-- Python's division operator `a / b`: raises `ZeroDivisionError` when
`b = 0` (modelled as `none`), otherwise exact division. -/
def pydiv (a b : ℚ) : Option ℚ := if b = 0 then none else some (a / b)

/-- `Throttler.typing_delay`: `base_delay = message_length / self.typing_speed`
(a bare division, no zero guard in the source), then
`variance = base_delay * random.uniform(-0.2, 0.2)`, returning
`base_delay + variance`. -/
def typingDelay (typing_speed : ℚ) (message_length : ℕ) (u : ℚ) : Option ℚ :=
  (pydiv (message_length : ℚ) typing_speed).map
    (fun base_delay => base_delay + base_delay * uniform (-1/5) (1/5) u)

/-- Python's division operator with the raised exception recorded: `a / b`
raises `ZeroDivisionError` when `b = 0`. -/
def pydivE (a b : ℚ) : Except String ℚ :=
  if b = 0 then .error "ZeroDivisionError" else .ok (a / b)

/-- `Throttler.typing_delay` with exception identity recorded (refining
`typingDelay`): the bare division's `ZeroDivisionError` propagates uncaught
out of the function — the source contains no guard or handler. -/
def typingDelayE (typing_speed : ℚ) (message_length : ℕ) (u : ℚ) : Except String ℚ :=
  match pydivE (message_length : ℚ) typing_speed with
  | .error e => .error e
  | .ok base_delay => .ok (base_delay + base_delay * uniform (-1/5) (1/5) u)

/-- `Throttler.page_load_delay`: `random.uniform(self.page_load_min, self.page_load_max)`. -/
def pageLoadDelay (page_load_min page_load_max u : ℚ) : ℚ :=
  uniform page_load_min page_load_max u

/-- The raw (pre-jitter) backoff value `min(base_delay * (2 ** attempt), max_delay)`
computed by `Throttler.exponential_backoff`. -/
def rawBackoff (base_delay max_delay : ℚ) (attempt : ℕ) : ℚ :=
  min (base_delay * 2 ^ attempt) max_delay

/-- `Throttler.exponential_backoff`:
`delay = min(base_delay * (2 ** attempt), max_delay)`,
`jitter = delay * random.uniform(0, 0.1)`, returns `delay + jitter`. -/
def exponentialBackoff (attempt : ℕ) (base_delay max_delay u : ℚ) : ℚ :=
  let delay := min (base_delay * 2 ^ attempt) max_delay
  let jitter := delay * uniform 0 (1/10) u
  delay + jitter

/-- A uniform draw with `u ∈ [0, 1]` lies in the inclusive interval `[a, b]`. -/
theorem uniform_mem (a b u : ℚ) (hab : a ≤ b) (hu0 : 0 ≤ u) (hu1 : u ≤ 1) :
    a ≤ uniform a b u ∧ uniform a b u ≤ b := by
  unfold uniform
  constructor
  · nlinarith
  · nlinarith

theorem rawBackoff_pos (base_delay max_delay : ℚ) (attempt : ℕ)
    (hb : 0 < base_delay) (hm : 0 < max_delay) :
    0 < rawBackoff base_delay max_delay attempt := by
  unfold rawBackoff
  have h2 : (0:ℚ) < 2 ^ attempt := by positivity
  exact lt_min (by positivity) hm

theorem exponentialBackoff_bounds (attempt : ℕ) (base_delay max_delay u : ℚ)
    (hb : 0 < base_delay) (hm : 0 < max_delay) (hu0 : 0 ≤ u) (hu1 : u ≤ 1) :
    rawBackoff base_delay max_delay attempt ≤ exponentialBackoff attempt base_delay max_delay u ∧
    exponentialBackoff attempt base_delay max_delay u ≤
      rawBackoff base_delay max_delay attempt * (11/10) := by
  have hraw : 0 < rawBackoff base_delay max_delay attempt :=
    rawBackoff_pos base_delay max_delay attempt hb hm
  have hrw : exponentialBackoff attempt base_delay max_delay u =
      rawBackoff base_delay max_delay attempt +
        rawBackoff base_delay max_delay attempt * (u / 10) := by
    unfold exponentialBackoff rawBackoff uniform
    ring_nf
  rw [hrw]
  constructor
  · nlinarith
  · nlinarith

/-- C1: for every non-negative integer `attempt` and positive `base_delay`,
`max_delay`, `exponential_backoff` returns a value in `[raw, raw * 1.1]`
where `raw = min(base_delay * 2^attempt, max_delay)`; in particular for
`base = 5`, `max = 300` the result lies in
`[min(5 * 2^attempt, 300), min(5 * 2^attempt, 300) * 1.1]`, and `raw` is
monotonically non-decreasing in `attempt`, constant once the cap is hit. -/
theorem exponential_backoff_spec (attempt : ℕ) (base_delay max_delay u : ℚ)
    (hb : 0 < base_delay) (hm : 0 < max_delay) (hu0 : 0 ≤ u) (hu1 : u ≤ 1) :
    (rawBackoff base_delay max_delay attempt ≤
        exponentialBackoff attempt base_delay max_delay u ∧
      exponentialBackoff attempt base_delay max_delay u ≤
        rawBackoff base_delay max_delay attempt * (11/10)) ∧
    (rawBackoff 5 300 attempt ≤ exponentialBackoff attempt 5 300 u ∧
      exponentialBackoff attempt 5 300 u ≤ rawBackoff 5 300 attempt * (11/10)) ∧
    rawBackoff base_delay max_delay attempt ≤ rawBackoff base_delay max_delay (attempt + 1) ∧
    (max_delay ≤ base_delay * 2 ^ attempt →
      rawBackoff base_delay max_delay attempt = max_delay) := by
  refine ⟨exponentialBackoff_bounds attempt base_delay max_delay u hb hm hu0 hu1,
    exponentialBackoff_bounds attempt 5 300 u (by norm_num) (by norm_num) hu0 hu1,
    ?_, ?_⟩
  · unfold rawBackoff
    have hpow : (2:ℚ) ^ attempt ≤ 2 ^ (attempt + 1) := by
      have := pow_le_pow_right (a := (2:ℚ)) (by norm_num) (Nat.le_succ attempt)
      exact this
    exact min_le_min (by nlinarith) le_rfl
  · intro hcap
    unfold rawBackoff
    exact min_eq_right hcap

/-- Witness for C1 at `attempt = 0`, `base = 5`, `max = 300`, `u = 0`. -/
theorem exponential_backoff_spec_witness :
    (0:ℚ) < 5 ∧ (0:ℚ) < 300 ∧
    rawBackoff 5 300 0 ≤ exponentialBackoff 0 5 300 0 ∧
    exponentialBackoff 0 5 300 0 ≤ rawBackoff 5 300 0 * (11/10) := by
  have h := exponential_backoff_spec 0 5 300 0 (by norm_num) (by norm_num)
    (le_refl 0) (by norm_num)
  exact ⟨by norm_num, by norm_num, h.1.1, h.1.2⟩

/-- The exception-recording model agrees with the `Option`-level model of
`typing_delay` everywhere. -/
theorem typingDelayE_toOption (typing_speed : ℚ) (message_length : ℕ) (u : ℚ) :
    (typingDelayE typing_speed message_length u).toOption =
      typingDelay typing_speed message_length u := by
  unfold typingDelayE typingDelay pydivE pydiv
  by_cases h : typing_speed = 0 <;> simp [h, Except.toOption]

/-- C4 counterexample: at `typing_speed = 0`, `message_length = 100`, the
outcome of `typing_delay` is exactly the unguarded division operator's own
`ZeroDivisionError` — not an explicitly guarded, reported error condition
as the claim describes. -/
theorem typing_delay_guard_counterexample :
    typingDelayE 0 100 (1/2) = pydivE 100 0 ∧
    pydivE 100 0 = Except.error "ZeroDivisionError" := by
  constructor <;> rfl

/-- C4 (amended): when `typing_chars_per_second` is 0, `typing_delay`
performs the division unguarded — the division operator's own
`ZeroDivisionError` propagates out of the function (there is no guarded,
reported branch), and no value, in particular no infinity, is silently
produced. -/
theorem typing_delay_unguarded_division_spec (message_length : ℕ) (u : ℚ) :
    typingDelayE 0 message_length u = Except.error "ZeroDivisionError" ∧
    typingDelay 0 message_length u = none ∧
    (typingDelayE 0 message_length u).toOption = typingDelay 0 message_length u := by
  refine ⟨?_, ?_, typingDelayE_toOption 0 message_length u⟩
  · simp [typingDelayE, pydivE]
  · simp [typingDelay, pydiv]

/-- C5: for every non-negative `message_length` and positive typing speed,
`typing_delay` returns `base * f` for some factor `f ∈ [0.8, 1.2]` with
`base = message_length / typing_speed`, the value is `≥ 0`, and in
particular `typing_delay(message_length = 100, typing_speed = 5)` lies in
`[16, 24]`. -/
theorem typing_delay_spec (message_length : ℕ) (typing_speed u : ℚ)
    (hs : 0 < typing_speed) (hu0 : 0 ≤ u) (hu1 : u ≤ 1) :
    (∃ f : ℚ, 4/5 ≤ f ∧ f ≤ 6/5 ∧
      typingDelay typing_speed message_length u =
        some ((message_length / typing_speed) * f) ∧
      0 ≤ (message_length / typing_speed) * f) ∧
    (∀ v : ℚ, typingDelay 5 100 u = some v → 16 ≤ v ∧ v ≤ 24) := by
  have hbase : (0:ℚ) ≤ (message_length : ℚ) / typing_speed := by positivity
  constructor
  · refine ⟨4/5 + (2/5) * u, by linarith, by linarith, ?_, ?_⟩
    · simp only [typingDelay, pydiv, if_neg hs.ne', Option.map_some']
      congr 1
      unfold uniform
      ring
    · have hf : (0:ℚ) ≤ 4/5 + (2/5) * u := by linarith
      exact mul_nonneg hbase hf
  · intro v hv
    have hval : typingDelay 5 100 u = some (16 + 8 * u) := by
      simp only [typingDelay, pydiv]
      norm_num
      unfold uniform
      ring
    rw [hval] at hv
    obtain rfl : v = 16 + 8 * u := (Option.some_injective ℚ hv).symm
    constructor <;> linarith

/-- Witness for C5 at `u = 1/2`: the result at length 100, speed 5 is in `[16, 24]`. -/
theorem typing_delay_spec_witness :
    (0:ℚ) < 5 ∧ (∀ v : ℚ, typingDelay 5 100 (1/2) = some v → 16 ≤ v ∧ v ≤ 24) :=
  ⟨by norm_num,
    (typing_delay_spec 100 5 (1/2) (by norm_num) (by norm_num) (by norm_num)).2⟩

/-- C6: with `0 ≤ min_delay ≤ max_delay` and `page_load_min ≤ page_load_max`,
`human_delay` lies in `[min_delay, max_delay]` and `page_load_delay` lies
in `[page_load_min, page_load_max]`. -/
theorem human_delay_page_load_delay_spec
    (min_delay max_delay page_load_min page_load_max u v : ℚ)
    (h0 : 0 ≤ min_delay) (h1 : min_delay ≤ max_delay)
    (h2 : page_load_min ≤ page_load_max)
    (hu0 : 0 ≤ u) (hu1 : u ≤ 1) (hv0 : 0 ≤ v) (hv1 : v ≤ 1) :
    (min_delay ≤ humanDelay min_delay max_delay u ∧
      humanDelay min_delay max_delay u ≤ max_delay) ∧
    (page_load_min ≤ pageLoadDelay page_load_min page_load_max v ∧
      pageLoadDelay page_load_min page_load_max v ≤ page_load_max) :=
  ⟨uniform_mem min_delay max_delay u h1 hu0 hu1,
    uniform_mem page_load_min page_load_max v h2 hv0 hv1⟩

/-- Witness for C6 with bounds `[30, 120]`, `[2, 5]` and draws `u = v = 1`. -/
theorem human_delay_page_load_delay_spec_witness :
    (0:ℚ) ≤ 30 ∧ (30:ℚ) ≤ 120 ∧ (2:ℚ) ≤ 5 ∧
    (30 ≤ humanDelay 30 120 1 ∧ humanDelay 30 120 1 ≤ 120) ∧
    (2 ≤ pageLoadDelay 2 5 1 ∧ pageLoadDelay 2 5 1 ≤ 5) := by
  have h := human_delay_page_load_delay_spec 30 120 2 5 1 1
    (by norm_num) (by norm_num) (by norm_num) (by norm_num) (by norm_num)
    (by norm_num) (by norm_num)
  exact ⟨by norm_num, by norm_num, by norm_num, h.1, h.2⟩

/-- A LinkedIn connection recipient (`core/models.py`, dataclass `Recipient`). -/
structure Recipient where
  first_name : String
  last_name : String
  profile_url : String
  company : Option String
  position : Option String
  location : Option String
deriving DecidableEq

/-- The configuration fields consumed by the send loop (`core/models.py`,
dataclass `Config`). -/
structure OrchestratorConfig where
  session_limit : ℕ
  enable_circuit_breaker : Bool
  max_consecutive_failures : ℤ
deriving DecidableEq

/-- `OutreachOrchestrator.__init__` sets `self.consecutive_failures = 0`. -/
def initialConsecutiveFailures : ℤ := 0

/-- `OutreachOrchestrator._check_circuit_breaker`: returns `False` when the
breaker is disabled, otherwise `consecutive_failures >= max_consecutive_failures`. -/
def checkCircuitBreaker (cfg : OrchestratorConfig) (consecutive_failures : ℤ) : Bool :=
  if !cfg.enable_circuit_breaker then false
  else decide (cfg.max_consecutive_failures ≤ consecutive_failures)

/-- The per-outcome update of `self.consecutive_failures` in
`OutreachOrchestrator._send_messages`: reset to 0 on success, increment on
failure. -/
def updateConsecutiveFailures (consecutive_failures : ℤ) (success : Bool) : ℤ :=
  if success then 0 else consecutive_failures + 1

/-- Observable events of one pass of the send loop: a logged outcome for an
attempted recipient (`log_message_sent` / `log_message_failed`), or an
inter-message wait (`wait_human_delay`). -/
inductive LoopEvent where
  | logged (idx : ℕ) (recipient : Recipient) (success : Bool)
  | waited
deriving DecidableEq

/-- The condition of `if idx < len(recipients) and success:` guarding the
inter-message delay in `_send_messages`. -/
def delayCond (total idx : ℕ) (success : Bool) : Bool :=
  decide (idx < total) && success

/-- The body of `OutreachOrchestrator._send_messages`, as a trace-producing
function: `rest` is the remaining recipients, `idx` the 1-based index of its
head (`enumerate(recipients, start=1)`), `sent` the messenger's count of
successfully sent messages (`MessageSender.messages_sent`, incremented only
on success), `cf` the consecutive-failure counter.  `deliver` abstracts
`MessageSender.send_message`'s success outcome. -/
def sendMessagesAux (cfg : OrchestratorConfig) (deliver : Recipient → Bool)
    (total : ℕ) : List Recipient → ℕ → ℕ → ℤ → List LoopEvent
  | [], _, _, _ => []
  | r :: rest, idx, sent, cf =>
    if cfg.session_limit ≤ sent then []
    else if checkCircuitBreaker cfg cf then []
    else
      let success := deliver r
      let tail := sendMessagesAux cfg deliver total rest (idx + 1)
        (if success then sent + 1 else sent) (updateConsecutiveFailures cf success)
      if delayCond total idx success then
        LoopEvent.logged idx r success :: LoopEvent.waited :: tail
      else
        LoopEvent.logged idx r success :: tail

/-- `OutreachOrchestrator._send_messages` started from a fresh messenger
(`messages_sent = 0`) and the orchestrator's initial failure counter. -/
def sendMessages (cfg : OrchestratorConfig) (deliver : Recipient → Bool)
    (recipients : List Recipient) : List LoopEvent :=
  sendMessagesAux cfg deliver recipients.length recipients 1 0 initialConsecutiveFailures

/-- Recipients for which an outcome was logged, in order. -/
def loggedRecipients (events : List LoopEvent) : List Recipient :=
  events.filterMap fun e =>
    match e with
    | .logged _ r _ => some r
    | .waited => none

/-- Whether an event is a logged successful delivery. -/
def isSuccessLog (e : LoopEvent) : Bool :=
  match e with
  | .logged _ _ true => true
  | _ => false

/-- Number of successfully sent messages recorded in a trace. -/
def successCount (events : List LoopEvent) : ℕ :=
  events.countP isSuccessLog

theorem consecutiveFailures_nonneg_fold (events : List Bool) :
    ∀ cf : ℤ, 0 ≤ cf → 0 ≤ events.foldl updateConsecutiveFailures cf := by
  induction events with
  | nil => intro cf h; simpa using h
  | cons b rest ih =>
    intro cf h
    simp only [List.foldl_cons]
    apply ih
    cases b <;> simp [updateConsecutiveFailures] <;> omega

/-- C2: the consecutive-failure counter starts at 0 and stays non-negative
over any history; each success resets it to 0, each failure increments it;
the breaker check is `false` when disabled and otherwise `true` iff the
counter has reached `max_consecutive_failures`. -/
theorem circuit_breaker_spec :
    initialConsecutiveFailures = 0 ∧
    (∀ events : List Bool,
      0 ≤ events.foldl updateConsecutiveFailures initialConsecutiveFailures) ∧
    (∀ cf : ℤ, updateConsecutiveFailures cf true = 0) ∧
    (∀ cf : ℤ, updateConsecutiveFailures cf false = cf + 1) ∧
    (∀ (cfg : OrchestratorConfig) (cf : ℤ), cfg.enable_circuit_breaker = false →
      checkCircuitBreaker cfg cf = false) ∧
    (∀ (cfg : OrchestratorConfig) (cf : ℤ), cfg.enable_circuit_breaker = true →
      (checkCircuitBreaker cfg cf = true ↔ cfg.max_consecutive_failures ≤ cf)) := by
  refine ⟨rfl, ?_, fun cf => rfl, fun cf => rfl, ?_, ?_⟩
  · intro events
    exact consecutiveFailures_nonneg_fold events _ le_rfl
  · intro cfg cf h
    simp [checkCircuitBreaker, h]
  · intro cfg cf h
    simp [checkCircuitBreaker, h]

/-- Witness for C2's breaker check at concrete configurations. -/
theorem circuit_breaker_spec_witness :
    checkCircuitBreaker ⟨10, false, 3⟩ 5 = false ∧
    (checkCircuitBreaker ⟨10, true, 3⟩ 5 = true ↔ (3:ℤ) ≤ 5) := by
  have h := circuit_breaker_spec
  exact ⟨h.2.2.2.2.1 ⟨10, false, 3⟩ 5 rfl, h.2.2.2.2.2 ⟨10, true, 3⟩ 5 rfl⟩

theorem sendMessagesAux_successCount (cfg : OrchestratorConfig)
    (deliver : Recipient → Bool) (total : ℕ) :
    ∀ (rest : List Recipient) (idx sent : ℕ) (cf : ℤ),
      successCount (sendMessagesAux cfg deliver total rest idx sent cf) + sent ≤
        max cfg.session_limit sent := by
  intro rest
  induction rest with
  | nil =>
    intro idx sent cf
    simp [sendMessagesAux, successCount]
  | cons r rest ih =>
    intro idx sent cf
    simp only [sendMessagesAux]
    by_cases h1 : cfg.session_limit ≤ sent
    · simp [h1, successCount]
    by_cases h2 : checkCircuitBreaker cfg cf = true
    · simp [h1, h2, successCount]
    simp only [if_neg h1, if_neg h2]
    cases hs : deliver r
    · have ihx := ih (idx + 1) sent (updateConsecutiveFailures cf false)
      simp only [successCount] at ihx ⊢
      by_cases hdel : delayCond total idx false = true
      · simp only [if_pos hdel]
        simp [List.countP_cons, isSuccessLog]
        omega
      · simp only [if_neg hdel]
        simp [List.countP_cons, isSuccessLog]
        omega
    · have ihx := ih (idx + 1) (sent + 1) (updateConsecutiveFailures cf true)
      simp only [successCount] at ihx ⊢
      by_cases hdel : delayCond total idx true = true
      · simp only [if_pos hdel]
        simp [List.countP_cons, isSuccessLog]
        omega
      · simp only [if_neg hdel]
        simp [List.countP_cons, isSuccessLog]
        omega

theorem sendMessagesAux_logged_take (cfg : OrchestratorConfig)
    (deliver : Recipient → Bool) (total : ℕ) :
    ∀ (rest : List Recipient) (idx sent : ℕ) (cf : ℤ),
      ∃ k, loggedRecipients (sendMessagesAux cfg deliver total rest idx sent cf) =
        rest.take k := by
  intro rest
  induction rest with
  | nil =>
    intro idx sent cf
    exact ⟨0, by simp [sendMessagesAux, loggedRecipients]⟩
  | cons r rest ih =>
    intro idx sent cf
    simp only [sendMessagesAux]
    by_cases h1 : cfg.session_limit ≤ sent
    · exact ⟨0, by simp [h1, loggedRecipients]⟩
    by_cases h2 : checkCircuitBreaker cfg cf = true
    · exact ⟨0, by simp [h1, h2, loggedRecipients]⟩
    obtain ⟨k, hk⟩ := ih (idx + 1) (if deliver r then sent + 1 else sent)
      (updateConsecutiveFailures cf (deliver r))
    refine ⟨k + 1, ?_⟩
    by_cases hdel : delayCond total idx (deliver r) = true
    · simp only [if_neg h1, if_neg h2, if_pos hdel]
      simp [loggedRecipients, List.filterMap_cons] at hk ⊢
      simpa [List.take_succ_cons] using hk
    · simp only [if_neg h1, if_neg h2, if_neg hdel]
      simp [loggedRecipients, List.filterMap_cons] at hk ⊢
      simpa [List.take_succ_cons] using hk

theorem sendMessagesAux_all_success (cfg : OrchestratorConfig)
    (deliver : Recipient → Bool) (total : ℕ)
    (hbrk : cfg.enable_circuit_breaker = false) (hdel : ∀ r, deliver r = true) :
    ∀ (rest : List Recipient) (idx sent : ℕ) (cf : ℤ),
      loggedRecipients (sendMessagesAux cfg deliver total rest idx sent cf) =
        rest.take (cfg.session_limit - sent) := by
  intro rest
  induction rest with
  | nil =>
    intro idx sent cf
    simp [sendMessagesAux, loggedRecipients]
  | cons r rest ih =>
    intro idx sent cf
    by_cases h1 : cfg.session_limit ≤ sent
    · have hz : cfg.session_limit - sent = 0 := Nat.sub_eq_zero_of_le h1
      simp [sendMessagesAux, h1, hz, loggedRecipients]
    · have h2 : ¬ (checkCircuitBreaker cfg cf = true) := by
        simp [checkCircuitBreaker, hbrk]
      have ihx := ih (idx + 1) (sent + 1) (updateConsecutiveFailures cf true)
      have hsub : cfg.session_limit - sent = (cfg.session_limit - (sent + 1)) + 1 := by
        omega
      rw [hsub]
      simp only [sendMessagesAux, hdel r, if_neg h1, if_neg h2]
      by_cases hd : delayCond total idx true = true
      · simp only [if_pos hd]
        simp only [loggedRecipients, List.filterMap_cons] at ihx ⊢
        simp only [List.take_succ_cons]
        simpa using ihx
      · simp only [if_neg hd]
        simp only [loggedRecipients, List.filterMap_cons] at ihx ⊢
        simp only [List.take_succ_cons]
        simpa using ihx

/-- C3: successes never exceed `session_limit`; the logged (equivalently,
attempted) recipients form an initial segment of the input sequence, so
recipients past the stopping point are neither attempted nor logged; and
when the breaker is disabled and every delivery succeeds, exactly the first
`session_limit` recipients are attempted and logged. -/
theorem send_messages_session_limit_spec (cfg : OrchestratorConfig)
    (deliver : Recipient → Bool) (recipients : List Recipient) :
    successCount (sendMessages cfg deliver recipients) ≤ cfg.session_limit ∧
    (∃ k, loggedRecipients (sendMessages cfg deliver recipients) = recipients.take k) ∧
    (cfg.enable_circuit_breaker = false → (∀ r, deliver r = true) →
      loggedRecipients (sendMessages cfg deliver recipients) =
        recipients.take cfg.session_limit) := by
  refine ⟨?_, ?_, ?_⟩
  · have h := sendMessagesAux_successCount cfg deliver recipients.length recipients 1 0
      initialConsecutiveFailures
    simpa [sendMessages] using h
  · exact sendMessagesAux_logged_take cfg deliver recipients.length recipients 1 0
      initialConsecutiveFailures
  · intro hbrk hdel
    have h := sendMessagesAux_all_success cfg deliver recipients.length hbrk hdel
      recipients 1 0 initialConsecutiveFailures
    simpa [sendMessages] using h

/-- A demonstration recipient used in concrete scenarios. -/
def demoRecipient (n : String) : Recipient :=
  ⟨n, "Demo", "https://www.linkedin.com/in/demo", none, none, none⟩

def demoRecipients : List Recipient :=
  [demoRecipient "A", demoRecipient "B", demoRecipient "C",
   demoRecipient "D", demoRecipient "E"]

def demoConfig : OrchestratorConfig := ⟨3, false, 3⟩

/-- Witness for C3: 5 recipients, `session_limit = 3`, every delivery
succeeding — exactly the first 3 recipients are attempted and logged. -/
theorem send_messages_session_limit_spec_witness :
    demoConfig.enable_circuit_breaker = false ∧
    loggedRecipients (sendMessages demoConfig (fun _ => true) demoRecipients) =
      [demoRecipient "A", demoRecipient "B", demoRecipient "C"] := by
  have h := (send_messages_session_limit_spec demoConfig (fun _ => true)
    demoRecipients).2.2 rfl (fun _ => rfl)
  refine ⟨rfl, ?_⟩
  rw [h]
  rfl

/-- Well-formedness of delay placement in a trace: a wait event occurs
exactly immediately after a logged outcome whose `delayCond` holds
(successful delivery at a non-last index), and nowhere else. -/
def waitedOk (total : ℕ) : List LoopEvent → Bool
  | [] => true
  | .waited :: _ => false
  | [.logged idx _ success] => !delayCond total idx success
  | .logged idx _ success :: .waited :: rest =>
      delayCond total idx success && waitedOk total rest
  | .logged idx _ success :: e :: rest =>
      !delayCond total idx success && waitedOk total (e :: rest)

theorem sendMessagesAux_head_logged (cfg : OrchestratorConfig)
    (deliver : Recipient → Bool) (total : ℕ) (rest : List Recipient)
    (idx sent : ℕ) (cf : ℤ) :
    sendMessagesAux cfg deliver total rest idx sent cf = [] ∨
    ∃ r s tail, sendMessagesAux cfg deliver total rest idx sent cf =
      LoopEvent.logged idx r s :: tail := by
  cases rest with
  | nil => left; rfl
  | cons r rest =>
    simp only [sendMessagesAux]
    by_cases h1 : cfg.session_limit ≤ sent
    · left; simp [h1]
    by_cases h2 : checkCircuitBreaker cfg cf = true
    · left; simp [h1, h2]
    right
    by_cases hd : delayCond total idx (deliver r) = true
    · refine ⟨r, deliver r, LoopEvent.waited :: sendMessagesAux cfg deliver total rest
        (idx + 1) (if deliver r then sent + 1 else sent)
        (updateConsecutiveFailures cf (deliver r)), ?_⟩
      simp [if_neg h1, if_neg h2, if_pos hd]
    · refine ⟨r, deliver r, sendMessagesAux cfg deliver total rest
        (idx + 1) (if deliver r then sent + 1 else sent)
        (updateConsecutiveFailures cf (deliver r)), ?_⟩
      simp [if_neg h1, if_neg h2, if_neg hd]

/-- C7: in every trace of the send loop, the inter-message wait occurs
immediately after a logged outcome if and only if that outcome was a
successful delivery at an index that is not the last recipient, and waits
occur nowhere else. -/
theorem send_messages_delay_placement (cfg : OrchestratorConfig)
    (deliver : Recipient → Bool) (recipients : List Recipient) :
    waitedOk recipients.length (sendMessages cfg deliver recipients) = true := by
  suffices h : ∀ (rest : List Recipient) (idx sent : ℕ) (cf : ℤ),
      waitedOk recipients.length
        (sendMessagesAux cfg deliver recipients.length rest idx sent cf) = true by
    exact h recipients 1 0 initialConsecutiveFailures
  intro rest
  induction rest with
  | nil => intro idx sent cf; rfl
  | cons r rest ih =>
    intro idx sent cf
    simp only [sendMessagesAux]
    by_cases h1 : cfg.session_limit ≤ sent
    · simp [h1, waitedOk]
    by_cases h2 : checkCircuitBreaker cfg cf = true
    · simp [h1, h2, waitedOk]
    simp only [if_neg h1, if_neg h2]
    by_cases hd : delayCond recipients.length idx (deliver r) = true
    · simp only [if_pos hd]
      simp [waitedOk, hd, ih]
    · simp only [if_neg hd]
      rcases sendMessagesAux_head_logged cfg deliver recipients.length rest (idx + 1)
          (if deliver r then sent + 1 else sent)
          (updateConsecutiveFailures cf (deliver r)) with htail | ⟨r', s', t', htail⟩
      · rw [htail]
        simp [waitedOk, hd]
      · rw [htail]
        have := ih (idx + 1) (if deliver r then sent + 1 else sent)
          (updateConsecutiveFailures cf (deliver r))
        rw [htail] at this
        simp [waitedOk, hd, this]

/-- The left brace character of the `\x7bplaceholder\x7d` syntax. -/
def lbrace : Char := Char.ofNat 123

/-- The right brace character. -/
def rbrace : Char := Char.ofNat 125

/-- The regex class `\w`: ASCII letters, digits and underscore. -/
def isWordChar (c : Char) : Bool := c.isAlphanum || c = Char.ofNat 95

/-- `PlaceholderReplacer.SUPPORTED_PLACEHOLDERS`. -/
def SUPPORTED_PLACEHOLDERS : List (List Char) :=
  ["first_name".data, "last_name".data, "company".data, "position".data,
   "location".data]

/-- Python's `str.replace` (all non-overlapping occurrences, left to right),
with explicit fuel; every use instantiates the fuel with the length of the
subject string, under which the fuel never runs out.  All patterns used are
the non-empty `\x7bkey\x7d` strings. -/
def replaceAllFuel (pattern replacement : List Char) : ℕ → List Char → List Char
  | _, [] => []
  | 0, s => s
  | fuel + 1, c :: s =>
    if pattern ≠ [] ∧ pattern <+: (c :: s) then
      replacement ++ replaceAllFuel pattern replacement fuel ((c :: s).drop pattern.length)
    else
      c :: replaceAllFuel pattern replacement fuel s

/-- Python's `str.replace` on character lists. -/
def replaceAll (pattern replacement s : List Char) : List Char :=
  replaceAllFuel pattern replacement s.length s

/-- The pattern `f'\x7b\x7bplaceholder\x7d\x7d'` built in
`PlaceholderReplacer.replace_placeholders`. -/
def phPattern (key : List Char) : List Char := lbrace :: key ++ [rbrace]

/-- Python string truthiness used in `recipient.company or 'your company'`:
`None` and the empty string fall back to the default. -/
def orDefault (v : Option String) (default : String) : String :=
  match v with
  | none => default
  | some s => if s = "" then default else s

/-- The replacement dictionary built in
`PlaceholderReplacer.replace_placeholders`, in insertion (hence iteration)
order. -/
def replacementsList (r : Recipient) : List (List Char × List Char) :=
  [("first_name".data, r.first_name.data),
   ("last_name".data, r.last_name.data),
   ("company".data, (orDefault r.company "your company").data),
   ("position".data, (orDefault r.position "your field").data),
   ("location".data, (orDefault r.location "your area").data)]

/-- `PlaceholderReplacer.replace_placeholders`: sequentially replace each
placeholder pattern by its value, in dictionary order. -/
def replacePlaceholders (template : List Char) (r : Recipient) : List Char :=
  (replacementsList r).foldl
    (fun message kv => replaceAll (phPattern kv.1) kv.2 message) template

/-- `re.findall(r'\x5c\x7b(\x5cw+)\x5c\x7d', template)`: the word contents of
every `\x7bword\x7d` occurrence, scanning left to right, with fuel (instantiated
with the string length). -/
def findPlaceholdersFuel : ℕ → List Char → List (List Char)
  | _, [] => []
  | 0, _ => []
  | fuel + 1, c :: s =>
    if c = lbrace then
      let w := s.takeWhile isWordChar
      match s.drop w.length with
      | d :: rest =>
        if w ≠ [] ∧ d = rbrace then w :: findPlaceholdersFuel fuel rest
        else findPlaceholdersFuel fuel s
      | [] => findPlaceholdersFuel fuel s
    else findPlaceholdersFuel fuel s

def findPlaceholders (template : List Char) : List (List Char) :=
  findPlaceholdersFuel template.length template

/-- `PlaceholderReplacer.validate_placeholders`: the found placeholders that
are not supported. -/
def validatePlaceholders (template : List Char) : List (List Char) :=
  (findPlaceholders template).filter (fun p => decide (p ∉ SUPPORTED_PLACEHOLDERS))

/-- First-match lookup in an association list (the replacement dictionary). -/
def lookupEnv : List (List Char × List Char) → List Char → Option (List Char)
  | [], _ => none
  | kv :: rest, w => if kv.1 = w then some kv.2 else lookupEnv rest w

/-- Modelled from the spec: the template-engine contract read as a
simultaneous, single-pass substitution — every recognized `\x7bword\x7d`
placeholder is replaced by its dictionary value, unrecognized placeholders
and all other text are left untouched.  (This is the comparison point for
the sequential implementation; fuel as in `findPlaceholdersFuel`.) -/
def substSpecFuel (env : List (List Char × List Char)) : ℕ → List Char → List Char
  | _, [] => []
  | 0, s => s
  | fuel + 1, c :: s =>
    if c = lbrace then
      let w := s.takeWhile isWordChar
      match s.drop w.length with
      | d :: rest =>
        if w ≠ [] ∧ d = rbrace then
          match lookupEnv env w with
          | some v => v ++ substSpecFuel env fuel rest
          | none => c :: substSpecFuel env fuel s
        else c :: substSpecFuel env fuel s
      | [] => c :: substSpecFuel env fuel s
    else c :: substSpecFuel env fuel s

/-- Modelled from the spec: simultaneous substitution over a template. -/
def substSpec (env : List (List Char × List Char)) (template : List Char) : List Char :=
  substSpecFuel env template.length template

/-- A template decomposed into brace-free literal segments and
`\x7bword\x7d` placeholders. -/
inductive Tok where
  | lit (s : List Char)
  | ph (key : List Char)
deriving DecidableEq

def renderTok : Tok → List Char
  | .lit s => s
  | .ph k => lbrace :: k ++ [rbrace]

def render (ts : List Tok) : List Char := (ts.map renderTok).join

/-- No brace characters occur in the string. -/
def braceFree (s : List Char) : Bool := s.all fun c => c ≠ lbrace && c ≠ rbrace

/-- A non-empty string of word characters. -/
def wordKey (k : List Char) : Bool := !k.isEmpty && k.all isWordChar

/-- Well-formed token: literal segments are brace-free, placeholder keys are
non-empty words. -/
def wfTok : Tok → Bool
  | .lit s => braceFree s
  | .ph k => wordKey k

/-- Substitute a single key in a token. -/
def substTok (key value : List Char) : Tok → Tok
  | .lit s => .lit s
  | .ph k => if k = key then .lit value else .ph k

/-- Simultaneous substitution of a whole dictionary in a token. -/
def applyEnvTok (env : List (List Char × List Char)) : Tok → Tok
  | .lit s => .lit s
  | .ph w =>
    match lookupEnv env w with
    | some v => .lit v
    | none => .ph w

/-- The key of a placeholder token. -/
def phKeyOf : Tok → Option (List Char)
  | .lit _ => none
  | .ph w => some w

theorem replaceAllFuel_nil (p v : List Char) (f : ℕ) : replaceAllFuel p v f [] = [] := by
  cases f <;> rfl

theorem replaceAllFuel_cons_neg (p v : List Char) (c : Char) (s : List Char) (f : ℕ)
    (h : ¬ p <+: (c :: s)) :
    replaceAllFuel p v (f + 1) (c :: s) = c :: replaceAllFuel p v f s := by
  rw [replaceAllFuel]
  rw [if_neg fun hc => h hc.2]

theorem replaceAllFuel_head_match (p0 : Char) (ps v b : List Char) (f : ℕ) :
    replaceAllFuel (p0 :: ps) v (f + 1) ((p0 :: ps) ++ b) =
      v ++ replaceAllFuel (p0 :: ps) v f b := by
  show replaceAllFuel (p0 :: ps) v (f + 1) (p0 :: (ps ++ b)) = _
  rw [replaceAllFuel]
  rw [if_pos ⟨List.cons_ne_nil _ _, (List.prefix_append (p0 :: ps) b : (p0 :: ps) <+: (p0 :: ps) ++ b)⟩]
  congr 1
  have h := List.drop_left (p0 :: ps) b
  simpa using h

theorem replaceAllFuel_append_no_start (p0 : Char) (ps v : List Char) :
    ∀ (a b : List Char) (f : ℕ), p0 ∉ a → a.length + b.length ≤ f →
      replaceAllFuel (p0 :: ps) v f (a ++ b) =
        a ++ replaceAllFuel (p0 :: ps) v (f - a.length) b := by
  intro a
  induction a with
  | nil => intro b f _ _; simp
  | cons c a ih =>
    intro b f hna hf
    obtain ⟨f', rfl⟩ : ∃ f', f = f' + 1 := ⟨f - 1, by simp at hf; omega⟩
    have hnc : ¬ (p0 :: ps) <+: (c :: (a ++ b)) := by
      intro hpre
      exact hna ((List.cons_prefix_cons.mp hpre).1 ▸ List.mem_cons_self c a)
    show replaceAllFuel (p0 :: ps) v (f' + 1) (c :: (a ++ b)) = _
    rw [replaceAllFuel_cons_neg _ _ _ _ _ hnc]
    rw [ih b f' (fun h => hna (List.mem_cons_of_mem _ h)) (by simp at hf ⊢; omega)]
    have hlen : ((c :: a).length : ℕ) = a.length + 1 := rfl
    rw [hlen]
    have hfl : f' + 1 - (a.length + 1) = f' - a.length := by omega
    rw [hfl]
    simp

theorem not_prefix_key_rbrace (x : List Char) :
    ∀ (k key : List Char), (∀ c ∈ key, isWordChar c = true) →
      (∀ c ∈ k, isWordChar c = true) → key ≠ k →
      ¬ (key ++ [rbrace] <+: k ++ rbrace :: x) := by
  intro k
  induction k with
  | nil =>
    intro key hkey _ hne hpre
    cases key with
    | nil => exact hne rfl
    | cons c key' =>
      have hc : c = rbrace := (List.cons_prefix_cons.mp hpre).1
      have hw := hkey c (List.mem_cons_self _ _)
      rw [hc] at hw
      exact absurd hw (by decide)
  | cons d k' ih =>
    intro key hkey hk hne hpre
    cases key with
    | nil =>
      have hd : rbrace = d := (List.cons_prefix_cons.mp hpre).1
      have hw := hk d (List.mem_cons_self _ _)
      rw [← hd] at hw
      exact absurd hw (by decide)
    | cons c key' =>
      obtain ⟨hcd, hpre'⟩ := List.cons_prefix_cons.mp hpre
      subst hcd
      exact ih key' (fun a ha => hkey a (List.mem_cons_of_mem _ ha))
        (fun a ha => hk a (List.mem_cons_of_mem _ ha))
        (fun h => hne (by rw [h])) hpre'

theorem render_nil : render [] = [] := rfl

theorem render_cons (t : Tok) (ts : List Tok) :
    render (t :: ts) = renderTok t ++ render ts := by
  simp [render]

theorem wfTok_substTok (key value : List Char) (hv : braceFree value = true) (t : Tok)
    (ht : wfTok t = true) : wfTok (substTok key value t) = true := by
  cases t with
  | lit s => simpa [substTok] using ht
  | ph k =>
    by_cases h : k = key
    · simp [substTok, h, wfTok, hv]
    · simpa [substTok, h, wfTok] using ht

theorem braceFree_no_lbrace (s : List Char) (h : braceFree s = true) : lbrace ∉ s := by
  intro hm
  have hc := (List.all_eq_true.mp h) _ hm
  simp [Bool.and_eq_true, decide_eq_true_eq] at hc

theorem wordChars_no_lbrace (k : List Char) (h : ∀ c ∈ k, isWordChar c = true) :
    lbrace ∉ k := by
  intro hm
  exact absurd (h _ hm) (by decide)

theorem replaceAllFuel_render (key value : List Char)
    (hkey : wordKey key = true) (hval : braceFree value = true) :
    ∀ (ts : List Tok) (f : ℕ), (∀ t ∈ ts, wfTok t = true) →
      (render ts).length ≤ f →
      replaceAllFuel (phPattern key) value f (render ts) =
        render (ts.map (substTok key value)) := by
  have hkeyw : ∀ c ∈ key, isWordChar c = true := by
    have h := hkey
    simp only [wordKey, Bool.and_eq_true, List.all_eq_true] at h
    exact h.2
  intro ts
  induction ts with
  | nil =>
    intro f _ _
    simpa [render] using replaceAllFuel_nil (phPattern key) value f
  | cons t ts ih =>
    intro f hwf hf
    have hwts : ∀ t' ∈ ts, wfTok t' = true := fun t' h => hwf t' (List.mem_cons_of_mem _ h)
    rw [render_cons] at hf ⊢
    rcases t with s | k
    · have hbf : braceFree s = true := by simpa [wfTok] using hwf _ (List.mem_cons_self _ _)
      have hnb : lbrace ∉ s := braceFree_no_lbrace s hbf
      simp only [renderTok] at hf ⊢
      rw [show phPattern key = lbrace :: (key ++ [rbrace]) from rfl]
      rw [replaceAllFuel_append_no_start lbrace (key ++ [rbrace]) value s (render ts) f hnb
        (by simp [List.length_append] at hf; omega)]
      rw [← show phPattern key = lbrace :: (key ++ [rbrace]) from rfl]
      rw [ih (f - s.length) hwts (by simp [List.length_append] at hf; omega)]
      rw [List.map_cons, render_cons]
      rfl
    · have hkw : wordKey k = true := by simpa [wfTok] using hwf _ (List.mem_cons_self _ _)
      have hkchars : ∀ c ∈ k, isWordChar c = true := by
        have h := hkw
        simp only [wordKey, Bool.and_eq_true, List.all_eq_true] at h
        exact h.2
      simp only [renderTok] at hf ⊢
      obtain ⟨f', rfl⟩ : ∃ f', f = f' + 1 := ⟨f - 1, by simp at hf; omega⟩
      by_cases hkk : k = key
      · subst hkk
        rw [show (lbrace :: k ++ [rbrace]) ++ render ts =
            (lbrace :: (k ++ [rbrace])) ++ render ts by simp]
        rw [show phPattern k = lbrace :: (k ++ [rbrace]) from rfl]
        rw [replaceAllFuel_head_match lbrace (k ++ [rbrace]) value (render ts) f']
        rw [← show phPattern k = lbrace :: (k ++ [rbrace]) from rfl]
        rw [ih f' hwts (by simp [List.length_append] at hf; omega)]
        rw [List.map_cons, render_cons]
        simp [substTok, renderTok]
      · have hshape : (lbrace :: k ++ [rbrace]) ++ render ts =
            lbrace :: (k ++ rbrace :: render ts) := by simp
        rw [hshape]
        have hnp : ¬ ((lbrace :: (key ++ [rbrace])) <+: lbrace :: (k ++ rbrace :: render ts)) := by
          intro hpre
          have h2 := (List.cons_prefix_cons.mp hpre).2
          exact not_prefix_key_rbrace (render ts) k key hkeyw hkchars
            (fun h => hkk (by rw [h])) h2
        rw [show phPattern key = lbrace :: (key ++ [rbrace]) from rfl]
        rw [replaceAllFuel_cons_neg (lbrace :: (key ++ [rbrace])) value lbrace
          (k ++ rbrace :: render ts) f' hnp]
        rw [show k ++ rbrace :: render ts = (k ++ [rbrace]) ++ render ts by simp]
        have hnb2 : lbrace ∉ k ++ [rbrace] := by
          intro hm
          rcases List.mem_append.mp hm with h | h
          · exact absurd (hkchars _ h) (by decide)
          · simp at h
            exact absurd h (by decide)
        rw [replaceAllFuel_append_no_start lbrace (key ++ [rbrace]) value (k ++ [rbrace])
          (render ts) f' hnb2 (by simp [List.length_append] at hf ⊢; omega)]
        rw [← show phPattern key = lbrace :: (key ++ [rbrace]) from rfl]
        rw [ih (f' - (k ++ [rbrace]).length) hwts (by simp [List.length_append] at hf ⊢; omega)]
        rw [List.map_cons, render_cons]
        simp [substTok, hkk, renderTok]

theorem foldl_replaceAll_render :
    ∀ (env : List (List Char × List Char)) (ts : List Tok),
      (∀ kv ∈ env, wordKey kv.1 = true ∧ braceFree kv.2 = true) →
      (∀ t ∈ ts, wfTok t = true) →
      env.foldl (fun message kv => replaceAll (phPattern kv.1) kv.2 message) (render ts) =
        render (ts.map fun t => env.foldl (fun t kv => substTok kv.1 kv.2 t) t) := by
  intro env
  induction env with
  | nil =>
    intro ts _ _
    simp
  | cons kv env ih =>
    intro ts henv hts
    simp only [List.foldl_cons]
    have hkv := henv kv (List.mem_cons_self _ _)
    have h1 : replaceAll (phPattern kv.1) kv.2 (render ts) =
        render (ts.map (substTok kv.1 kv.2)) := by
      unfold replaceAll
      exact replaceAllFuel_render kv.1 kv.2 hkv.1 hkv.2 ts (render ts).length hts le_rfl
    rw [h1]
    rw [ih (ts.map (substTok kv.1 kv.2)) (fun kv' h => henv kv' (List.mem_cons_of_mem _ h))
      (by
        intro t' ht'
        obtain ⟨t, ht, rfl⟩ := List.mem_map.mp ht'
        exact wfTok_substTok kv.1 kv.2 hkv.2 t (hts t ht))]
    rw [List.map_map]
    rfl

theorem foldl_substTok_lit (env : List (List Char × List Char)) (s : List Char) :
    env.foldl (fun t kv => substTok kv.1 kv.2 t) (Tok.lit s) = Tok.lit s := by
  induction env with
  | nil => rfl
  | cons kv env ih => simpa [substTok] using ih

theorem foldl_substTok_eq_applyEnvTok :
    ∀ (env : List (List Char × List Char)) (t : Tok),
      env.foldl (fun t kv => substTok kv.1 kv.2 t) t = applyEnvTok env t := by
  intro env
  induction env with
  | nil =>
    intro t
    cases t <;> rfl
  | cons kv env ih =>
    intro t
    cases t with
    | lit s =>
      simp only [List.foldl_cons]
      rw [show substTok kv.1 kv.2 (Tok.lit s) = Tok.lit s from rfl, foldl_substTok_lit]
      rfl
    | ph w =>
      simp only [List.foldl_cons]
      by_cases h : w = kv.1
      · subst h
        rw [show substTok kv.1 kv.2 (Tok.ph kv.1) = Tok.lit kv.2 by simp [substTok],
          foldl_substTok_lit]
        simp [applyEnvTok, lookupEnv]
      · have h' : ¬ (kv.1 = w) := fun hh => h hh.symm
        rw [show substTok kv.1 kv.2 (Tok.ph w) = Tok.ph w by simp [substTok, h],
          ih (Tok.ph w)]
        simp [applyEnvTok, lookupEnv, h']

theorem findPlaceholdersFuel_nil (f : ℕ) : findPlaceholdersFuel f [] = [] := by
  cases f <;> rfl

theorem findPlaceholdersFuel_append_no_brace :
    ∀ (a b : List Char) (f : ℕ), lbrace ∉ a → a.length + b.length ≤ f →
      findPlaceholdersFuel f (a ++ b) = findPlaceholdersFuel (f - a.length) b := by
  intro a
  induction a with
  | nil => intro b f _ _; simp
  | cons c a ih =>
    intro b f hna hf
    obtain ⟨f', rfl⟩ : ∃ f', f = f' + 1 := ⟨f - 1, by simp at hf; omega⟩
    have hc : ¬ (c = lbrace) := fun h => hna (h ▸ List.mem_cons_self c a)
    show findPlaceholdersFuel (f' + 1) (c :: (a ++ b)) = _
    rw [findPlaceholdersFuel]
    rw [if_neg hc]
    rw [ih b f' (fun h => hna (List.mem_cons_of_mem _ h)) (by simp at hf ⊢; omega)]
    have hlen : ((c :: a).length : ℕ) = a.length + 1 := rfl
    rw [hlen]
    have hfl : f' + 1 - (a.length + 1) = f' - a.length := by omega
    rw [hfl]

theorem takeWhile_append_of_all (p : Char → Bool) :
    ∀ (w : List Char) (d : Char) (x : List Char), (∀ c ∈ w, p c = true) → p d = false →
      (w ++ d :: x).takeWhile p = w := by
  intro w
  induction w with
  | nil => intro d x _ hd; simp [List.takeWhile_cons, hd]
  | cons c w ih =>
    intro d x hw hd
    rw [List.cons_append, List.takeWhile_cons]
    rw [hw c (List.mem_cons_self _ _)]
    simp [ih d x (fun a ha => hw a (List.mem_cons_of_mem _ ha)) hd]

theorem findPlaceholdersFuel_render :
    ∀ (ts : List Tok) (f : ℕ), (∀ t ∈ ts, wfTok t = true) → (render ts).length ≤ f →
      findPlaceholdersFuel f (render ts) = ts.filterMap phKeyOf := by
  intro ts
  induction ts with
  | nil => intro f _ _; simpa [render] using findPlaceholdersFuel_nil f
  | cons t ts ih =>
    intro f hwf hf
    have hwts : ∀ t' ∈ ts, wfTok t' = true := fun t' h => hwf t' (List.mem_cons_of_mem _ h)
    rw [render_cons] at hf ⊢
    rcases t with s | k
    · have hbf : braceFree s = true := by simpa [wfTok] using hwf _ (List.mem_cons_self _ _)
      have hnb : lbrace ∉ s := braceFree_no_lbrace s hbf
      simp only [renderTok] at hf ⊢
      rw [findPlaceholdersFuel_append_no_brace s (render ts) f hnb
        (by simp [List.length_append] at hf; omega)]
      rw [ih (f - s.length) hwts (by simp [List.length_append] at hf; omega)]
      simp [phKeyOf]
    · have hkw : wordKey k = true := by simpa [wfTok] using hwf _ (List.mem_cons_self _ _)
      have hkchars : ∀ c ∈ k, isWordChar c = true := by
        have h := hkw
        simp only [wordKey, Bool.and_eq_true, List.all_eq_true] at h
        exact h.2
      have hkne : k ≠ [] := by
        have h := hkw
        simp only [wordKey, Bool.and_eq_true] at h
        simpa [List.isEmpty_iff] using h.1
      simp only [renderTok] at hf ⊢
      obtain ⟨f', rfl⟩ : ∃ f', f = f' + 1 := ⟨f - 1, by simp at hf; omega⟩
      rw [show (lbrace :: k ++ [rbrace]) ++ render ts =
          lbrace :: (k ++ rbrace :: render ts) by simp]
      rw [findPlaceholdersFuel]
      rw [if_pos rfl]
      have hw : (k ++ rbrace :: render ts).takeWhile isWordChar = k :=
        takeWhile_append_of_all isWordChar k rbrace (render ts) hkchars (by decide)
      have hdrop : (k ++ rbrace :: render ts).drop k.length = rbrace :: render ts := by
        simpa using List.drop_left k (rbrace :: render ts)
      simp only [hw, hdrop]
      rw [if_pos ⟨hkne, trivial⟩]
      rw [ih f' hwts (by simp [List.length_append] at hf ⊢; omega)]
      simp [phKeyOf]

theorem validatePlaceholders_mem (template w : List Char) :
    w ∈ validatePlaceholders template ↔
      w ∈ findPlaceholders template ∧ w ∉ SUPPORTED_PLACEHOLDERS := by
  simp [validatePlaceholders, List.mem_filter]

def nestedTemplate : List Char := lbrace :: phPattern "first_name".data ++ [rbrace]

def seqRecipient : Recipient :=
  ⟨"last_name", "Smith", "https://www.linkedin.com/in/smith", none, none, none⟩

/-- C8 counterexample: on the template `\x7b\x7bfirst_name\x7d\x7d` (a stray pair of
braces around a placeholder) with `first_name = "last_name"`, the sequential
engine produces `"Smith"`, not the simultaneous substitution
`\x7blast_name\x7d` the claim describes. -/
theorem replace_placeholders_not_simultaneous :
    replacePlaceholders nestedTemplate seqRecipient = "Smith".data ∧
    substSpec (replacementsList seqRecipient) nestedTemplate =
      lbrace :: "last_name".data ++ [rbrace] ∧
    replacePlaceholders nestedTemplate seqRecipient ≠
      substSpec (replacementsList seqRecipient) nestedTemplate :=
  ⟨by decide, by decide, by decide⟩

/-- C8 (amended): for templates whose braces all delimit placeholders and
recipients whose substituted field values (defaults included) are brace-free,
the engine returns the simultaneous substitution of every recognized
placeholder by the corresponding field value (with the fixed default phrases
for absent optional fields), leaves unrecognized placeholders untouched, and
validation flags exactly the placeholders outside the fixed vocabulary. -/
theorem replace_placeholders_contract (r : Recipient) (ts : List Tok)
    (hts : ∀ t ∈ ts, wfTok t = true)
    (hvals : ∀ kv ∈ replacementsList r, braceFree kv.2 = true) :
    replacePlaceholders (render ts) r =
      render (ts.map (applyEnvTok (replacementsList r))) ∧
    (∀ w, Tok.ph w ∈ ts → lookupEnv (replacementsList r) w = none →
      Tok.ph w ∈ ts.map (applyEnvTok (replacementsList r))) ∧
    validatePlaceholders (render ts) =
      (ts.filterMap phKeyOf).filter (fun w => decide (w ∉ SUPPORTED_PLACEHOLDERS)) ∧
    (∀ template w, w ∈ validatePlaceholders template ↔
      w ∈ findPlaceholders template ∧ w ∉ SUPPORTED_PLACEHOLDERS) := by
  have hkeys : ∀ kv ∈ replacementsList r, wordKey kv.1 = true ∧ braceFree kv.2 = true := by
    intro kv hkv
    refine ⟨?_, hvals kv hkv⟩
    simp only [replacementsList, List.mem_cons, List.not_mem_nil, or_false] at hkv
    rcases hkv with h | h | h | h | h <;> subst h <;> rfl
  refine ⟨?_, ?_, ?_, fun template w => validatePlaceholders_mem template w⟩
  · unfold replacePlaceholders
    rw [foldl_replaceAll_render (replacementsList r) ts hkeys hts]
    simp only [foldl_substTok_eq_applyEnvTok]
  · intro w hw hlook
    have happ : applyEnvTok (replacementsList r) (Tok.ph w) = Tok.ph w := by
      simp [applyEnvTok, hlook]
    exact happ ▸ List.mem_map_of_mem _ hw
  · unfold validatePlaceholders findPlaceholders
    rw [findPlaceholdersFuel_render ts (render ts).length hts le_rfl]

def demoToks : List Tok :=
  [Tok.lit "Hi ".data, Tok.ph "first_name".data, Tok.lit " of ".data,
   Tok.ph "foo".data]

/-- Witness for C8 (amended) at a concrete template and recipient: the known
placeholder is substituted, the unknown one is left untouched. -/
theorem replace_placeholders_contract_witness :
    (∀ t ∈ demoToks, wfTok t = true) ∧
    replacePlaceholders (render demoToks) (demoRecipient "A") =
      render (demoToks.map (applyEnvTok (replacementsList (demoRecipient "A")))) ∧
    replacePlaceholders (render demoToks) (demoRecipient "A") =
      "Hi A of ".data ++ (lbrace :: "foo".data ++ [rbrace]) :=
  ⟨by decide,
    (replace_placeholders_contract (demoRecipient "A") demoToks (by decide) (by decide)).1,
    by decide⟩

def injRecipient : Recipient :=
  ⟨"\x7bcompany\x7d", "Doe", "https://www.linkedin.com/in/jdoe", some "Acme", none, none⟩

/-- C10: substitution is sequential (first_name, last_name, company,
position, location), not simultaneous: with `first_name = "\x7bcompany\x7d"`,
rendering `\x7bfirst_name\x7d` substitutes the injected text with the company
value `"Acme"` instead of leaving it literal, so the result differs from the
simultaneous substitution. -/
theorem replace_placeholders_sequential_injection :
    injRecipient.first_name = "\x7bcompany\x7d" ∧
    replacePlaceholders (phPattern "first_name".data) injRecipient = "Acme".data ∧
    substSpec (replacementsList injRecipient) (phPattern "first_name".data) =
      "\x7bcompany\x7d".data ∧
    replacePlaceholders (phPattern "first_name".data) injRecipient ≠
      substSpec (replacementsList injRecipient) (phPattern "first_name".data) :=
  ⟨rfl, by decide, by decide, by decide⟩

/-- A raw CSV row as read by `csv.DictReader`: missing fields are the empty
string (`cleaned.get(key, '')` / `cleaned.get(key) or None`). -/
structure CsvRow where
  first_name : String
  last_name : String
  profile_url : String
  company : String
  position : String
  location : String
deriving DecidableEq

/-- Python's `str.strip`: remove leading and trailing whitespace. -/
def pyStrip (s : String) : String :=
  String.mk (((s.data.dropWhile Char.isWhitespace).reverse.dropWhile
    Char.isWhitespace).reverse)

/-- The character class `[\x5cw-]` of the profile-URL regex. -/
def isProfileChar (c : Char) : Bool := isWordChar c || c = Char.ofNat 45

/-- Consume a literal from the front of a string, returning the remainder. -/
def matchLit : List Char → List Char → Option (List Char)
  | [], s => some s
  | _ :: _, [] => none
  | c :: p, d :: s => if c = d then matchLit p s else none

/-- `Recipient._is_valid_url`: `re.match` of
`^https?://(www\x5c.)?linkedin\x5c.com/in/[\x5cw-]+/?$`. -/
def isValidUrl (url : List Char) : Bool :=
  match matchLit "http".data url with
  | none => false
  | some r1 =>
    let r2 := match r1 with
      | c :: r => if c = Char.ofNat 115 then r else r1
      | [] => r1
    match matchLit "://".data r2 with
    | none => false
    | some r3 =>
      let r4 := match matchLit "www.".data r3 with
        | some r => r
        | none => r3
      match matchLit "linkedin.com/in/".data r4 with
      | none => false
      | some r5 =>
        let run := r5.takeWhile isProfileChar
        let rem := r5.drop run.length
        decide (run ≠ []) && (decide (rem = []) || decide (rem = [Char.ofNat 47]))

/-- `Recipient.__post_init__` validation: the first failing check's error
message, or `none` for a valid recipient.  (`not s` in Python is `s = ""`;
the fields reaching this point are already stripped by `_parse_row`.) -/
def recipientError (first_name last_name profile_url : String) : Option String :=
  if first_name = "" ∨ pyStrip first_name = "" then some "First name is required"
  else if last_name = "" ∨ pyStrip last_name = "" then some "Last name is required"
  else if profile_url = "" ∨ pyStrip profile_url = "" then some "Profile URL is required"
  else if ¬ (isValidUrl profile_url.data = true) then
    some ("Invalid LinkedIn profile URL: " ++ profile_url)
  else none

/-- `CSVHandler._parse_row`: strip all fields, build the recipient (optional
fields fall back to `None` when empty), reporting a
`f"Row \x7brow_num\x7d: ..."` message when validation raises. -/
def parseRow (row : CsvRow) (row_num : ℕ) : Except String Recipient :=
  let fn := pyStrip row.first_name
  let ln := pyStrip row.last_name
  let pu := pyStrip row.profile_url
  let co := pyStrip row.company
  let po := pyStrip row.position
  let lo := pyStrip row.location
  match recipientError fn ln pu with
  | some e => .error ("Row " ++ toString row_num ++ ": " ++ e)
  | none => .ok ⟨fn, ln, pu,
      if co = "" then none else some co,
      if po = "" then none else some po,
      if lo = "" then none else some lo⟩

/-- The loop of `CSVHandler.load_connections`: before each row, stop once the
number of collected recipients has reached `max_connections`; otherwise parse
the row, collecting the recipient or its error message. -/
def loadConnectionsAux (max_connections : ℕ) :
    List CsvRow → ℕ → ℕ → List Recipient × List String
  | [], _, _ => ([], [])
  | row :: rest, idx, count =>
    if max_connections ≤ count then ([], [])
    else
      match parseRow row idx with
      | .ok r =>
        let p := loadConnectionsAux max_connections rest (idx + 1) (count + 1)
        (r :: p.1, p.2)
      | .error e =>
        let p := loadConnectionsAux max_connections rest (idx + 1) count
        (p.1, e :: p.2)

/-- `CSVHandler.load_connections` on an already-read list of rows
(`enumerate(reader, start=1)`). -/
def loadConnections (max_connections : ℕ) (rows : List CsvRow) :
    List Recipient × List String :=
  loadConnectionsAux max_connections rows 1 0

/-- The recipient a row parses to, if any (independent of its row number). -/
def rowRecipient (row : CsvRow) : Option Recipient := (parseRow row 0).toOption

/-- The error messages of all malformed rows, in order, numbering rows from
`idx`. -/
def parseErrorsFrom : List CsvRow → ℕ → List String
  | [], _ => []
  | row :: rest, idx =>
    match parseRow row idx with
    | .ok _ => parseErrorsFrom rest (idx + 1)
    | .error e => e :: parseErrorsFrom rest (idx + 1)

theorem rowRecipient_of_ok (row : CsvRow) (idx : ℕ) (r : Recipient)
    (h : parseRow row idx = .ok r) : rowRecipient row = some r := by
  simp only [parseRow] at h
  simp only [rowRecipient, parseRow]
  cases hre : recipientError (pyStrip row.first_name) (pyStrip row.last_name)
      (pyStrip row.profile_url) <;> simp_all [Except.toOption]

theorem rowRecipient_of_error (row : CsvRow) (idx : ℕ) (e : String)
    (h : parseRow row idx = .error e) : rowRecipient row = none := by
  simp only [parseRow] at h
  simp only [rowRecipient, parseRow]
  cases hre : recipientError (pyStrip row.first_name) (pyStrip row.last_name)
      (pyStrip row.profile_url) <;> simp_all [Except.toOption]

theorem loadConnectionsAux_fst (maxc : ℕ) :
    ∀ (rows : List CsvRow) (idx count : ℕ),
      (loadConnectionsAux maxc rows idx count).1 =
        (rows.filterMap rowRecipient).take (maxc - count) := by
  intro rows
  induction rows with
  | nil => intro idx count; simp [loadConnectionsAux]
  | cons row rest ih =>
    intro idx count
    simp only [loadConnectionsAux]
    by_cases h1 : maxc ≤ count
    · simp [h1, Nat.sub_eq_zero_of_le h1]
    · rw [if_neg h1]
      cases hp : parseRow row idx with
      | ok r =>
        have hrr : rowRecipient row = some r := rowRecipient_of_ok row idx r hp
        simp only [List.filterMap_cons, hrr]
        rw [ih (idx + 1) (count + 1)]
        have hs : maxc - count = (maxc - (count + 1)) + 1 := by omega
        rw [hs, List.take_succ_cons]
      | error e =>
        have hrr : rowRecipient row = none := rowRecipient_of_error row idx e hp
        simp only [List.filterMap_cons, hrr]
        exact ih (idx + 1) count

theorem loadConnectionsAux_snd (maxc : ℕ) :
    ∀ (rows : List CsvRow) (idx count : ℕ),
      count + (rows.filterMap rowRecipient).length < maxc →
      (loadConnectionsAux maxc rows idx count).2 = parseErrorsFrom rows idx := by
  intro rows
  induction rows with
  | nil => intro idx count _; rfl
  | cons row rest ih =>
    intro idx count hlt
    have h1 : ¬ maxc ≤ count := by omega
    simp only [loadConnectionsAux, parseErrorsFrom]
    rw [if_neg h1]
    cases hp : parseRow row idx with
    | ok r =>
      have hrr : rowRecipient row = some r := rowRecipient_of_ok row idx r hp
      simp only [List.filterMap_cons, hrr, List.length_cons] at hlt
      exact ih (idx + 1) (count + 1) (by omega)
    | error e =>
      have hrr : rowRecipient row = none := rowRecipient_of_error row idx e hp
      simp only [List.filterMap_cons, hrr] at hlt
      simp only [List.cons.injEq, true_and]
      exact ih (idx + 1) count (by omega)

/-- C9: the loader returns at most `max_connections` recipients — exactly the
valid rows in order, truncated at the cap — and (whenever the cap does not cut
the scan short) one error message per malformed row, each malformed row being
excluded from the recipients without aborting the load. -/
theorem load_connections_spec (maxc : ℕ) (rows : List CsvRow) :
    (loadConnections maxc rows).1 = (rows.filterMap rowRecipient).take maxc ∧
    (loadConnections maxc rows).1.length ≤ maxc ∧
    ((rows.filterMap rowRecipient).length < maxc →
      (loadConnections maxc rows).2 = parseErrorsFrom rows 1) := by
  have h1 : (loadConnections maxc rows).1 = (rows.filterMap rowRecipient).take maxc := by
    have h := loadConnectionsAux_fst maxc rows 1 0
    simpa [loadConnections] using h
  refine ⟨h1, ?_, ?_⟩
  · rw [h1, List.length_take]
    exact min_le_left _ _
  · intro h
    have := loadConnectionsAux_snd maxc rows 1 0 (by omega)
    simpa [loadConnections] using this

def csvRowJohn : CsvRow :=
  ⟨"John", "Doe", "https://www.linkedin.com/in/johndoe/", "TechCorp", "", ""⟩

def csvRowEmptyFirst : CsvRow :=
  ⟨"   ", "Smith", "https://www.linkedin.com/in/x", "", "", ""⟩

def csvRowJane : CsvRow :=
  ⟨" Jane ", "Smith", "https://www.linkedin.com/in/janesmith", "", "", ""⟩

/-- Witness for C9: a malformed middle row (blank first name) yields exactly
one error and is excluded, while the valid rows around it load. -/
theorem load_connections_spec_witness :
    (loadConnections 10 [csvRowJohn, csvRowEmptyFirst, csvRowJane]).1 =
      ([csvRowJohn, csvRowEmptyFirst, csvRowJane].filterMap rowRecipient).take 10 ∧
    (loadConnections 10 [csvRowJohn, csvRowEmptyFirst, csvRowJane]).2 =
      ["Row 2: First name is required"] ∧
    (loadConnections 10 [csvRowJohn, csvRowEmptyFirst, csvRowJane]).1.map
      Recipient.first_name = ["John", "Jane"] := by
  have h := load_connections_spec 10 [csvRowJohn, csvRowEmptyFirst, csvRowJane]
  refine ⟨h.1, ?_, by decide⟩
  rw [h.2.2 (by decide)]
  decide
